import Mathlib

/-!
Verification of the identifier factory of the wormholes link shortener
(src/services/generator/factory.go) against its specification.

Go strings are modelled as lists of bytes (`GoStr`), the bloom filter and
the in-memory bucket store — whose sources are not part of the staged
files — are modelled from the specification, and the concurrent behaviour
of the scheduler, the fill workers and the consumers is modelled as a
small-step transition relation whose atomic steps are the lock-protected
critical sections of the Go code.
-/

/-- A Go string, as its sequence of bytes. -/
abbrev GoStr : Type := List Nat

/-- Embedding of `fasterByte` (factory.go): an unsafe zero-copy view of the
string as a byte slice of length `len(s)` whose element `i` is the byte at
offset `i` of the string data. -/
def fasterByte (s : GoStr) : List Nat :=
  (List.range s.length).map (fun i => s.getD i 0)

/-- The status tag of a bucket, as in the Go constants used by factory.go. -/
inductive BucketStatus where
  | BucketEmpty
  | BucketBusy
  | BucketFull
deriving DecidableEq, Repr

open BucketStatus

/-- Modelled from the spec: the Membership Filter is a probabilistic set with
insertion and a possibly-false-positive, never-false-negative membership
test.  `added` holds every key inserted so far; `fp` is the (arbitrary but
fixed) false-positive behaviour of the filter on keys not yet inserted. -/
structure Bloom where
  added : List (List Nat)
  fp : List Nat → Bool

/-- Modelled from the spec: `Add(key)` records the key as present. -/
def Bloom.Add (b : Bloom) (key : List Nat) : Bloom :=
  { b with added := key :: b.added }

/-- Modelled from the spec: `Exists(key)` is true when the key is possibly
present: always true for an inserted key (no false negatives), and may be
true for an absent key (a false positive). -/
def Bloom.Exists (b : Bloom) (key : List Nat) : Bool :=
  b.added.contains key || b.fp key

/-- Modelled from the spec: the Bucket Pool owns S buckets, each an ordered
fixed-size sequence of identifiers together with a status tag, and a common
capacity C. -/
structure MemStore where
  capacity : Nat
  status : List BucketStatus
  buckets : List (List GoStr)

/-- Modelled from the spec: a fresh pool of `size` buckets, all `Empty`. -/
def NewMemStore (size capacity : Nat) : MemStore :=
  { capacity := capacity
    status := List.replicate size BucketEmpty
    buckets := List.replicate size [] }

/-- Modelled from the spec: `ListEmpty` returns the ordered indices of all
currently `Empty` buckets (called `GetEmpty` by factory.go). -/
def MemStore.GetEmpty (s : MemStore) : List Nat :=
  (List.range s.status.length).filter
    (fun i => s.status.getD i BucketEmpty == BucketEmpty)

/-- Embedding of the scheduler claim assignment of `Factory.Run`
(factory.go): `f.store.status[idx] = BucketBusy`, performed under the
store lock, unconditionally — no precondition on the current status is
checked and the bucket contents are not touched.  `Run` invokes it only
on the indices `GetEmpty` just returned. -/
def MemStore.setBusy (s : MemStore) (idx : Nat) : MemStore :=
  { s with status := s.status.set idx BucketBusy }

/-- Modelled from the spec: `MarkFull(idx, identifiers)` installs the batch
and marks the bucket `Full`. -/
def MemStore.MarkFull (s : MemStore) (idx : Nat) (ids : List GoStr) : MemStore :=
  { s with
    status := s.status.set idx BucketFull
    buckets := s.buckets.set idx ids }

/-- Modelled from the spec: `Pop` scans bucket indices in ascending order for
the first `Full` bucket; if one is found it copies out its identifiers and
resets the bucket to `Empty`; otherwise it returns no identifiers.
`firstFull` is the ascending scan for the first `Full` status. -/
def firstFull : List BucketStatus → Option Nat
  | [] => none
  | st :: sts =>
      if st = BucketFull then some 0 else (firstFull sts).map (· + 1)

def MemStore.Pop (s : MemStore) : List GoStr × MemStore :=
  match firstFull s.status with
  | none => ([], s)
  | some i =>
      (s.buckets.getD i [], { s with status := s.status.set i BucketEmpty })

/-- The identifier factory (factory.go): the bloom filter, the bucket store,
the identifier size, and the refill ticker (modelled by whether it is
running). -/
structure Factory where
  bloom : Bloom
  store : MemStore
  size : Nat
  tickRunning : Bool

/-- The outcome of the two database interactions of `Prepare` (factory.go):
`countResult` is the result of the id-count query (`none` when the query
fails, in which case the Go `idCount` variable keeps its zero value), and
`rowsResult` is the result of the id query (`none` when the query fails; a
`none` row is one whose scan fails and is skipped). -/
structure DbResult where
  countResult : Option Nat
  rowsResult : Option (List (Option GoStr))

/-- The body of the row loop of `Factory.Prepare` (factory.go): a row whose
scan failed is skipped, a parsed id is added to the bloom filter. -/
def addRow (b : Bloom) (row : Option GoStr) : Bloom :=
  match row with
  | none => b
  | some id => b.Add (fasterByte id)

/-- Embedding of `Factory.Prepare` (factory.go): read the count of existing
ids; when it is positive, stream the ids and add each successfully parsed
one to the bloom filter; every failure is logged and skipped, and the
factory is always returned. -/
def Factory.Prepare (f : Factory) (db : DbResult) : Factory :=
  let idCount := db.countResult.getD 0
  if 0 < idCount then
    match db.rowsResult with
    | none => f
    | some rows => { f with bloom := rows.foldl addRow f.bloom }
  else
    f

/-- Embedding of `Factory.Shutdown` (factory.go): stop the ticker and nothing
else. -/
def Factory.Shutdown (f : Factory) : Factory :=
  { f with tickRunning := false }

/-- Embedding of the loop body of `Factory.populateBucket` (factory.go): walk
the stream of generation attempts (`none` is a failed `nanoid.New` call)
until `capacity` identifiers have been accepted; a candidate that is empty
or already possibly-present in the bloom filter is discarded; an accepted
candidate is added to the bloom filter and appended to the batch.  The Go
loop has no bound on attempts, so exhausting the modelled attempt stream
early yields `none` (the Go code would keep generating). -/
def fillLoop (capacity : Nat) (bloom : Bloom) (acc : List GoStr) :
    List (Option GoStr) → Option (List GoStr × Bloom)
  | [] => if capacity ≤ acc.length then some (acc, bloom) else none
  | cand :: rest =>
    if capacity ≤ acc.length then some (acc, bloom)
    else
      match cand with
      | none => fillLoop capacity bloom acc rest
      | some id =>
          if id = [] then fillLoop capacity bloom acc rest
          else if bloom.Exists (fasterByte id) then fillLoop capacity bloom acc rest
          else fillLoop capacity (bloom.Add (fasterByte id)) (acc ++ [id]) rest

/-- Embedding of `Factory.populateBucket` (factory.go): run the fill loop
from an empty batch; on completion the accepted identifiers occupy slots
0..capacity-1 of bucket `idx` and its status is set to `Full`. -/
def Factory.populateBucket (f : Factory) (idx : Nat) (cands : List (Option GoStr)) :
    Option Factory :=
  match fillLoop f.store.capacity f.bloom [] cands with
  | none => none
  | some (batch, b) =>
      some { f with
        bloom := b
        store := { f.store with
          buckets := f.store.buckets.set idx batch
          status := f.store.status.set idx BucketFull } }

/-- The gRPC status codes the factory uses. -/
inductive GrpcCode where
  | ResourceExhausted
deriving DecidableEq, Repr

/-- A gRPC error status, as built by `status.New(code, msg).Err()`. -/
structure GrpcStatus where
  code : GrpcCode
  message : String
deriving DecidableEq, Repr

/-- The protobuf bucket message: an ordered sequence of identifiers. -/
structure ProtoBucket where
  Ids : List GoStr
deriving DecidableEq

/-- Embedding of `Factory.GetBucket` (factory.go), the remote allocate: pop a
batch; when it is empty fail with a `ResourceExhausted` status, otherwise
return the batch in a protobuf bucket. -/
def Factory.GetBucket (f : Factory) : Except GrpcStatus ProtoBucket × Factory :=
  let popped := f.store.Pop
  if popped.1.length = 0 then
    (Except.error
        { code := GrpcCode.ResourceExhausted
          message := "factory: it\x27s empty here" },
      { f with store := popped.2 })
  else
    (Except.ok { Ids := popped.1 }, { f with store := popped.2 })

/-- Embedding of `Factory.GetLocalBucket` (factory.go), the local allocate:
pop a batch; when it is empty fail with an error, otherwise return the
batch. -/
def Factory.GetLocalBucket (f : Factory) : Except String (List GoStr) × Factory :=
  let popped := f.store.Pop
  if popped.1.length = 0 then
    (Except.error "factory: it\x27s empty here", { f with store := popped.2 })
  else
    (Except.ok popped.1, { f with store := popped.2 })

/-- The state of a run of the system: the factory plus the (ghost) list of
every identifier handed to a consumer so far, in order. -/
structure SysState where
  factory : Factory
  issued : List GoStr

/-- A fill worker's atomic steps, at the granularity of the thread-safe
bloom-filter operations and the lock-protected status writes of
`populateBucket` (factory.go).  The contents of a `Busy` bucket stand for
the worker's accumulated batch (`fillCount` accepted identifiers). -/
inductive FillStep : SysState → SysState → Prop
  | accept (s : SysState) (idx : Nat) (id : GoStr) :
      s.factory.store.status[idx]? = some BucketBusy →
      (s.factory.store.buckets.getD idx []).length < s.factory.store.capacity →
      id ≠ [] →
      s.factory.bloom.Exists (fasterByte id) = false →
      FillStep s
        { s with factory := { s.factory with
            bloom := s.factory.bloom.Add (fasterByte id)
            store := { s.factory.store with
              buckets := s.factory.store.buckets.set idx
                (s.factory.store.buckets.getD idx [] ++ [id]) } } }
  | complete (s : SysState) (idx : Nat) :
      s.factory.store.status[idx]? = some BucketBusy →
      (s.factory.store.buckets.getD idx []).length = s.factory.store.capacity →
      FillStep s
        { s with factory := { s.factory with
            store := { s.factory.store with
              status := s.factory.store.status.set idx BucketFull } } }

/-- One atomic step of the system: the scheduler claiming an `Empty` bucket
for a fill worker (`Run`, factory.go, fires only while the ticker runs), a
fill worker's step, a consumer allocating through either the local or the
remote interface, or `Shutdown` stopping the ticker. -/
inductive Step : SysState → SysState → Prop
  | claim (s : SysState) (idx : Nat) :
      s.factory.tickRunning = true →
      s.factory.store.status[idx]? = some BucketEmpty →
      Step s
        { s with factory := { s.factory with
            store := { s.factory.store with
              status := s.factory.store.status.set idx BucketBusy
              buckets := s.factory.store.buckets.set idx [] } } }
  | fill (s s' : SysState) : FillStep s s' → Step s s'
  | allocateLocal (s : SysState) (ids : List GoStr) (f : Factory) :
      s.factory.GetLocalBucket = (Except.ok ids, f) →
      Step s { factory := f, issued := s.issued ++ ids }
  | allocateRemote (s : SysState) (b : ProtoBucket) (f : Factory) :
      s.factory.GetBucket = (Except.ok b, f) →
      Step s { factory := f, issued := s.issued ++ b.Ids }
  | shutdown (s : SysState) :
      Step s { s with factory := s.factory.Shutdown }

/-- The reflexive-transitive closure of `Step`: all states a run can reach. -/
def Reachable : SysState → SysState → Prop :=
  Relation.ReflTransGen Step

/-- The state of a run right after startup: a factory whose bloom filter is
whatever `Prepare` left (any filter), a fresh pool, a running ticker, and
nothing issued. -/
def initState (b0 : Bloom) (size capacity idSize : Nat) : SysState :=
  { factory :=
      { bloom := b0
        store := NewMemStore size capacity
        size := idSize
        tickRunning := true }
    issued := [] }

/-- The identifiers currently held by non-`Empty` buckets, in bucket order:
the batches that fill workers have accumulated or completed but consumers
have not yet drained. -/
def liveIds : List BucketStatus → List (List GoStr) → List GoStr
  | [], _ => []
  | _ :: _, [] => []
  | st :: sts, b :: bs => (if st = BucketEmpty then [] else b) ++ liveIds sts bs

/-- Every identifier a run has put into circulation: those already issued to
consumers followed by those held by non-`Empty` buckets. -/
def activeIds (s : SysState) : List GoStr :=
  s.issued ++ liveIds s.factory.store.status s.factory.store.buckets

/-- The run invariant: status and bucket lists stay aligned, every `Full`
bucket holds a full batch, no identifier is in circulation twice, and every
identifier in circulation has been added to the bloom filter. -/
def RunInv (s : SysState) : Prop :=
  s.factory.store.buckets.length = s.factory.store.status.length ∧
  (∀ i, i < s.factory.store.status.length →
      s.factory.store.status.getD i BucketEmpty = BucketFull →
      (s.factory.store.buckets.getD i []).length = s.factory.store.capacity) ∧
  (activeIds s).Nodup ∧
  (∀ id, id ∈ activeIds s → fasterByte id ∈ s.factory.bloom.added)

/-! ### Basic list and filter lemmas -/

theorem getD_range_map (l : List Nat) :
    (List.range l.length).map (fun i => l.getD i 0) = l := by
  induction l with
  | nil => rfl
  | cons a t ih =>
      simp only [List.length_cons, List.range_succ_eq_map, List.map_cons,
        List.map_map, List.getD_cons_zero, Function.comp_def, List.getD_cons_succ]
      exact congrArg (a :: ·) ih

/-- The unsafe byte view is exactly the byte sequence of the string. -/
theorem fasterByte_eq (s : GoStr) : fasterByte s = s :=
  getD_range_map s

theorem getD_set_self {α : Type} (l : List α) (i : Nat) (a d : α)
    (h : i < l.length) : (l.set i a).getD i d = a := by
  simp [List.getD_eq_getElem?_getD, List.getElem?_set_self h]

theorem getD_set_ne {α : Type} (l : List α) (i j : Nat) (a d : α)
    (h : i ≠ j) : (l.set i a).getD j d = l.getD j d := by
  simp [List.getD_eq_getElem?_getD, List.getElem?_set_ne h]

theorem getD_of_getElem?_some {α : Type} {l : List α} {i : Nat} {a : α} (d : α)
    (h : l[i]? = some a) : l.getD i d = a := by
  simp [List.getD_eq_getElem?_getD, h]

theorem lt_length_of_getElem?_some {α : Type} {l : List α} {i : Nat} {a : α}
    (h : l[i]? = some a) : i < l.length := by
  by_contra hlt
  rw [List.getElem?_eq_none (Nat.le_of_not_lt hlt)] at h
  exact Option.noConfusion h

theorem contains_iff_mem_goStr {l : List GoStr} {a : GoStr} :
    l.contains a = true ↔ a ∈ l := List.elem_iff

theorem firstFull_some {sts : List BucketStatus} {i : Nat}
    (h : firstFull sts = some i) :
    i < sts.length ∧ sts.getD i BucketEmpty = BucketFull := by
  induction sts generalizing i with
  | nil => exact Option.noConfusion h
  | cons st rest ih =>
      by_cases hf : st = BucketFull
      · simp only [firstFull, hf, if_pos rfl] at h
        cases h
        exact ⟨Nat.succ_pos _, by simp [hf]⟩
      · simp only [firstFull, if_neg hf] at h
        match hrest : firstFull rest with
        | none => rw [hrest] at h; exact Option.noConfusion h
        | some j =>
            rw [hrest] at h
            simp only [Option.map_some'] at h
            cases h
            obtain ⟨hlt, hget⟩ := ih hrest
            exact ⟨Nat.succ_lt_succ hlt, by simpa using hget⟩

theorem firstFull_none {sts : List BucketStatus}
    (h : firstFull sts = none) :
    ∀ i, i < sts.length → sts.getD i BucketEmpty ≠ BucketFull := by
  induction sts with
  | nil => intro i hi; simp at hi
  | cons st rest ih =>
      by_cases hf : st = BucketFull
      · simp [firstFull, hf] at h
      · simp only [firstFull, if_neg hf] at h
        have hrest : firstFull rest = none := by
          match hr : firstFull rest with
          | none => rfl
          | some j => rw [hr] at h; simp at h
        intro i hi
        match i with
        | 0 => simpa using hf
        | Nat.succ j =>
            simp only [List.getD_cons_succ]
            exact ih hrest j (Nat.lt_of_succ_lt_succ hi)

/-! ### Bloom filter lemmas -/

theorem Bloom.Exists_of_mem {b : Bloom} {k : List Nat} (h : k ∈ b.added) :
    b.Exists k = true := by
  simp [Bloom.Exists, List.contains, List.elem_iff, h]

theorem Bloom.not_mem_of_Exists_false {b : Bloom} {k : List Nat}
    (h : b.Exists k = false) : k ∉ b.added := by
  intro hm
  rw [Bloom.Exists_of_mem hm] at h
  exact Bool.noConfusion h

theorem Bloom.mem_Add_self (b : Bloom) (k : List Nat) : k ∈ (b.Add k).added :=
  List.mem_cons_self _ _

theorem Bloom.mem_Add_of_mem {b : Bloom} {k j : List Nat} (h : k ∈ b.added) :
    k ∈ (b.Add j).added :=
  List.mem_cons_of_mem _ h

theorem Bloom.Exists_Add_mono {b : Bloom} {k j : List Nat}
    (h : b.Exists k = true) : (b.Add j).Exists k = true := by
  simp only [Bloom.Exists, Bloom.Add, List.contains_cons, Bool.or_eq_true] at h ⊢
  rcases h with h | h
  · exact Or.inl (Or.inr h)
  · exact Or.inr h

theorem Bloom.Exists_false_of_Add {b : Bloom} {k j : List Nat}
    (h : (b.Add j).Exists k = false) : b.Exists k = false := by
  cases hb : b.Exists k with
  | false => rfl
  | true => rw [Bloom.Exists_Add_mono hb] at h; exact Bool.noConfusion h

theorem Bloom.ne_of_Exists_Add_false {b : Bloom} {k j : List Nat}
    (h : (b.Add j).Exists k = false) : k ≠ j := by
  intro he
  subst he
  rw [Bloom.Exists_of_mem (Bloom.mem_Add_self b k)] at h
  exact Bool.noConfusion h

/-! ### liveIds lemmas: how each atomic step moves identifiers around -/

theorem liveIds_replicate (n : Nat) :
    ∀ bs, liveIds (List.replicate n BucketEmpty) bs = [] := by
  induction n with
  | zero => intro bs; rfl
  | succ m ih =>
      intro bs
      match bs with
      | [] => rfl
      | b :: bs' => simp [List.replicate_succ, liveIds, ih]

theorem liveIds_claim (sts : List BucketStatus) :
    ∀ (bs : List (List GoStr)) (idx : Nat), sts[idx]? = some BucketEmpty →
    liveIds (sts.set idx BucketBusy) (bs.set idx []) = liveIds sts bs := by
  induction sts with
  | nil => intro bs idx h; simp at h
  | cons st rest ih =>
      intro bs idx h
      match idx, bs with
      | 0, [] => rfl
      | 0, b :: bs' =>
          have hst : st = BucketEmpty := by simpa using h
          subst hst
          simp [liveIds]
      | Nat.succ j, [] => rfl
      | Nat.succ j, b :: bs' =>
          have h' : rest[j]? = some BucketEmpty := by simpa using h
          simp only [List.set_cons_succ, liveIds, ih bs' j h']

theorem liveIds_accept (sts : List BucketStatus) :
    ∀ (bs : List (List GoStr)) (idx : Nat) (id : GoStr),
    sts[idx]? = some BucketBusy → idx < bs.length →
    (liveIds sts (bs.set idx (bs.getD idx [] ++ [id]))).Perm
      (id :: liveIds sts bs) := by
  induction sts with
  | nil => intro bs idx id h _; simp at h
  | cons st rest ih =>
      intro bs idx id h hlen
      match idx, bs with
      | 0, [] => exact absurd hlen (by simp)
      | 0, b :: bs' =>
          have hst : st = BucketBusy := by simpa using h
          subst hst
          simp only [List.getD_cons_zero, List.set_cons_zero, liveIds,
            if_neg (by simp : ¬ (BucketBusy = BucketEmpty))]
          rw [List.append_assoc]
          exact List.perm_middle
      | Nat.succ j, [] => exact absurd hlen (by simp)
      | Nat.succ j, b :: bs' =>
          have h' : rest[j]? = some BucketBusy := by simpa using h
          have hlen' : j < bs'.length := by simpa using hlen
          simp only [List.set_cons_succ, List.getD_cons_succ, liveIds]
          exact ((ih bs' j id h' hlen').append_left _).trans List.perm_middle

theorem liveIds_complete (sts : List BucketStatus) :
    ∀ (bs : List (List GoStr)) (idx : Nat), sts[idx]? = some BucketBusy →
    liveIds (sts.set idx BucketFull) bs = liveIds sts bs := by
  induction sts with
  | nil => intro bs idx h; simp at h
  | cons st rest ih =>
      intro bs idx h
      match idx, bs with
      | 0, [] => rfl
      | 0, b :: bs' =>
          have hst : st = BucketBusy := by simpa using h
          subst hst
          simp [liveIds]
      | Nat.succ j, [] => rfl
      | Nat.succ j, b :: bs' =>
          have h' : rest[j]? = some BucketBusy := by simpa using h
          simp only [List.set_cons_succ, liveIds, ih bs' j h']

theorem liveIds_pop (sts : List BucketStatus) :
    ∀ (bs : List (List GoStr)) (i : Nat), sts[i]? = some BucketFull →
    (liveIds sts bs).Perm
      (bs.getD i [] ++ liveIds (sts.set i BucketEmpty) bs) := by
  induction sts with
  | nil => intro bs i h; simp at h
  | cons st rest ih =>
      intro bs i h
      match i, bs with
      | 0, [] => simp [liveIds]
      | 0, b :: bs' =>
          have hst : st = BucketFull := by simpa using h
          subst hst
          simp [liveIds]
      | Nat.succ j, [] => simp [liveIds]
      | Nat.succ j, b :: bs' =>
          have h' : rest[j]? = some BucketFull := by simpa using h
          simp only [List.set_cons_succ, List.getD_cons_succ, liveIds]
          refine ((ih bs' j h').append_left _).trans ?_
          rw [← List.append_assoc, ← List.append_assoc]
          exact List.perm_append_comm.append_right _

theorem getElem?_some_of_getD {α : Type} {l : List α} {i : Nat} {a : α} (d : α)
    (hlt : i < l.length) (h : l.getD i d = a) : l[i]? = some a := by
  rw [List.getD_eq_getElem?_getD, List.getElem?_eq_getElem hlt] at h
  rw [List.getElem?_eq_getElem hlt]
  simpa using h

/-! ### The run invariant holds initially and is preserved by every step -/

theorem runInv_init (b0 : Bloom) (size capacity idSize : Nat) :
    RunInv (initState b0 size capacity idSize) := by
  refine ⟨by simp [initState, NewMemStore], ?_, ?_, ?_⟩
  · intro i hi hfi
    simp only [initState, NewMemStore, List.length_replicate] at hi hfi
    rw [List.getD_eq_getElem?_getD, List.getElem?_replicate, if_pos hi] at hfi
    exact absurd hfi (by simp)
  · simp [activeIds, initState, NewMemStore, liveIds_replicate]
  · intro id hid
    simp [activeIds, initState, NewMemStore, liveIds_replicate] at hid

theorem runInv_fillStep {s s' : SysState} (h : FillStep s s')
    (hinv : RunInv s) : RunInv s' := by
  obtain ⟨hlen, hfull, hnd, hmem⟩ := hinv
  cases h with
  | accept idx id hbusy hcap hne hex =>
      have hidxs : idx < s.factory.store.status.length :=
        lt_length_of_getElem?_some hbusy
      have hidxb : idx < s.factory.store.buckets.length := by
        rw [hlen]; exact hidxs
      have hla :=
        liveIds_accept s.factory.store.status s.factory.store.buckets idx id
          hbusy hidxb
      have hperm :
          (s.issued ++ liveIds s.factory.store.status
            (s.factory.store.buckets.set idx
              (s.factory.store.buckets.getD idx [] ++ [id]))).Perm
          (id :: activeIds s) :=
        (hla.append_left s.issued).trans List.perm_middle
      have hfresh : id ∉ activeIds s := by
        intro hm
        exact absurd (hmem id hm) (Bloom.not_mem_of_Exists_false hex)
      refine ⟨by simpa [List.length_set] using hlen, ?_, ?_, ?_⟩
      · intro i hi hfi
        simp only at hi hfi ⊢
        by_cases hii : i = idx
        · subst hii
          rw [getD_of_getElem?_some BucketEmpty hbusy] at hfi
          exact absurd hfi (by simp)
        · rw [getD_set_ne _ _ _ _ _ (fun hs => hii hs.symm)]
          exact hfull i hi hfi
      · show (s.issued ++ liveIds _ _).Nodup
        exact hperm.nodup_iff.mpr (List.nodup_cons.mpr ⟨hfresh, hnd⟩)
      · intro x hx
        have hx' : x ∈ id :: activeIds s := hperm.mem_iff.mp hx
        rcases List.mem_cons.mp hx' with hxe | hxm
        · subst hxe
          exact Bloom.mem_Add_self _ _
        · exact Bloom.mem_Add_of_mem (hmem x hxm)
  | complete idx hbusy hcnt =>
      have hidxs : idx < s.factory.store.status.length :=
        lt_length_of_getElem?_some hbusy
      have heq :=
        liveIds_complete s.factory.store.status s.factory.store.buckets idx hbusy
      refine ⟨by simpa [List.length_set] using hlen, ?_, ?_, ?_⟩
      · intro i hi hfi
        simp only [List.length_set] at hi
        by_cases hii : i = idx
        · subst hii
          exact hcnt
        · rw [getD_set_ne _ _ _ _ _ (fun hs => hii hs.symm)] at hfi
          exact hfull i hi hfi
      · show (s.issued ++ liveIds _ _).Nodup
        rw [heq]
        exact hnd
      · intro x hx
        apply hmem
        have hx2 : x ∈ s.issued ++
            liveIds (s.factory.store.status.set idx BucketFull)
              s.factory.store.buckets := hx
        rw [heq] at hx2
        exact hx2

theorem pop_none {st : MemStore} (hff : firstFull st.status = none) :
    st.Pop = ([], st) := by
  unfold MemStore.Pop
  rw [hff]

theorem pop_some {st : MemStore} {i : Nat} (hff : firstFull st.status = some i) :
    st.Pop = (st.buckets.getD i [],
      { st with status := st.status.set i BucketEmpty }) := by
  unfold MemStore.Pop
  rw [hff]

theorem getLocalBucket_ok {f f2 : Factory} {ids : List GoStr}
    (h : f.GetLocalBucket = (Except.ok ids, f2)) :
    ∃ i, firstFull f.store.status = some i ∧
      ids = f.store.buckets.getD i [] ∧
      ids ≠ [] ∧
      f2 = { f with store :=
        { f.store with status := f.store.status.set i BucketEmpty } } := by
  match hff : firstFull f.store.status with
  | none =>
      simp [Factory.GetLocalBucket, pop_none hff] at h
  | some i =>
      simp only [Factory.GetLocalBucket, pop_some hff] at h
      by_cases hnil : (f.store.buckets.getD i []).length = 0
      · rw [if_pos hnil] at h
        exact absurd h (by simp)
      · rw [if_neg hnil] at h
        simp only [Prod.mk.injEq, Except.ok.injEq] at h
        obtain ⟨h1, h2⟩ := h
        refine ⟨i, rfl, h1.symm, ?_, h2.symm⟩
        intro hn
        exact hnil (by rw [h1, hn]; rfl)

theorem getBucket_ok {f f2 : Factory} {b : ProtoBucket}
    (h : f.GetBucket = (Except.ok b, f2)) :
    ∃ i, firstFull f.store.status = some i ∧
      b.Ids = f.store.buckets.getD i [] ∧
      b.Ids ≠ [] ∧
      f2 = { f with store :=
        { f.store with status := f.store.status.set i BucketEmpty } } := by
  match hff : firstFull f.store.status with
  | none =>
      simp [Factory.GetBucket, pop_none hff] at h
  | some i =>
      simp only [Factory.GetBucket, pop_some hff] at h
      by_cases hnil : (f.store.buckets.getD i []).length = 0
      · rw [if_pos hnil] at h
        exact absurd h (by simp)
      · rw [if_neg hnil] at h
        simp only [Prod.mk.injEq, Except.ok.injEq] at h
        obtain ⟨hb, hf2⟩ := h
        have hids : b.Ids = f.store.buckets.getD i [] := by rw [← hb]
        refine ⟨i, rfl, hids, ?_, hf2.symm⟩
        intro hn
        exact hnil (by rw [← hids, hn]; rfl)

/-- The state change a successful allocate makes, shared by the local and the
remote interface: the first `Full` bucket is drained and its batch appended
to the issued identifiers. -/
theorem runInv_popStep {s : SysState} {i : Nat}
    (hff : firstFull s.factory.store.status = some i) (hinv : RunInv s) :
    RunInv { factory := { s.factory with store :=
               { s.factory.store with
                 status := s.factory.store.status.set i BucketEmpty } },
             issued := s.issued ++ s.factory.store.buckets.getD i [] } := by
  obtain ⟨hlen, hfull, hnd, hmem⟩ := hinv
  obtain ⟨hilt, hif⟩ := firstFull_some hff
  have hielem : s.factory.store.status[i]? = some BucketFull :=
    getElem?_some_of_getD BucketEmpty hilt hif
  have hlp :=
    liveIds_pop s.factory.store.status s.factory.store.buckets i hielem
  have hperm :
      (activeIds s).Perm
        ((s.issued ++ s.factory.store.buckets.getD i []) ++
          liveIds (s.factory.store.status.set i BucketEmpty)
            s.factory.store.buckets) := by
    refine (hlp.append_left s.issued).trans ?_
    rw [List.append_assoc]
  refine ⟨by simpa [List.length_set] using hlen, ?_, ?_, ?_⟩
  · intro j hj hfj
    simp only [List.length_set] at hj
    by_cases hji : j = i
    · subst hji
      rw [getD_set_self _ _ _ _ hilt] at hfj
      exact absurd hfj (by simp)
    · rw [getD_set_ne _ _ _ _ _ (fun hs => hji hs.symm)] at hfj
      exact hfull j hj hfj
  · exact hperm.nodup_iff.mp hnd
  · intro x hx
    exact hmem x (hperm.mem_iff.mpr hx)

theorem runInv_step {s s' : SysState} (h : Step s s') (hinv : RunInv s) :
    RunInv s' := by
  cases h with
  | claim idx htick hempty =>
      obtain ⟨hlen, hfull, hnd, hmem⟩ := hinv
      have hidxs : idx < s.factory.store.status.length :=
        lt_length_of_getElem?_some hempty
      have heq :=
        liveIds_claim s.factory.store.status s.factory.store.buckets idx hempty
      refine ⟨by simpa [List.length_set] using hlen, ?_, ?_, ?_⟩
      · intro i hi hfi
        simp only [List.length_set] at hi
        by_cases hii : i = idx
        · subst hii
          rw [getD_set_self _ _ _ _ hidxs] at hfi
          exact absurd hfi (by simp)
        · rw [getD_set_ne _ _ _ _ _ (fun hs => hii hs.symm)] at hfi
          rw [getD_set_ne _ _ _ _ _ (fun hs => hii hs.symm)]
          exact hfull i hi hfi
      · show (s.issued ++ liveIds _ _).Nodup
        rw [heq]
        exact hnd
      · intro x hx
        apply hmem
        have hx2 : x ∈ s.issued ++
            liveIds (s.factory.store.status.set idx BucketBusy)
              (s.factory.store.buckets.set idx []) := hx
        rw [heq] at hx2
        exact hx2
  | fill _ hf => exact runInv_fillStep hf hinv
  | allocateLocal ids f2 hok =>
      obtain ⟨i, hff, hids, -, hf2⟩ := getLocalBucket_ok hok
      subst hids
      subst hf2
      exact runInv_popStep hff hinv
  | allocateRemote b f2 hok =>
      obtain ⟨i, hff, hids, -, hf2⟩ := getBucket_ok hok
      rw [hids]
      subst hf2
      exact runInv_popStep hff hinv
  | shutdown => exact hinv

theorem runInv_reachable {s0 s : SysState} (h : Reachable s0 s)
    (h0 : RunInv s0) : RunInv s := by
  induction h with
  | refl => exact h0
  | tail _ hstep ih => exact runInv_step hstep ih

/-! ### Correctness of the fill loop -/

theorem fillLoop_spec (cap : Nat) :
    ∀ (cands : List (Option GoStr)) (bloom : Bloom) (acc batch : List GoStr)
      (b2 : Bloom),
    fillLoop cap bloom acc cands = some (batch, b2) →
    acc.length ≤ cap →
    batch.length = cap ∧
    ∃ nw, batch = acc ++ nw ∧
      b2.added = (nw.map fasterByte).reverse ++ bloom.added ∧
      nw.Nodup ∧
      (∀ id, id ∈ nw → bloom.Exists (fasterByte id) = false) := by
  intro cands
  induction cands with
  | nil =>
      intro bloom acc batch b2 h hle
      simp only [fillLoop] at h
      by_cases hge : cap ≤ acc.length
      · rw [if_pos hge] at h
        obtain ⟨hb, h2⟩ := Prod.mk.injEq .. ▸ (Option.some.injEq .. ▸ h)
        refine ⟨?_, [], by simp [← hb], by simp [← h2], List.nodup_nil, by simp⟩
        rw [← hb]
        exact Nat.le_antisymm hle hge
      · rw [if_neg hge] at h
        exact Option.noConfusion h
  | cons cand rest ih =>
      intro bloom acc batch b2 h hle
      simp only [fillLoop] at h
      by_cases hge : cap ≤ acc.length
      · rw [if_pos hge] at h
        obtain ⟨hb, h2⟩ := Prod.mk.injEq .. ▸ (Option.some.injEq .. ▸ h)
        refine ⟨?_, [], by simp [← hb], by simp [← h2], List.nodup_nil, by simp⟩
        rw [← hb]
        exact Nat.le_antisymm hle hge
      · rw [if_neg hge] at h
        match cand with
        | none => exact ih bloom acc batch b2 h hle
        | some id =>
            have h : (if id = [] then fillLoop cap bloom acc rest
                else if bloom.Exists (fasterByte id) = true then
                  fillLoop cap bloom acc rest
                else fillLoop cap (bloom.Add (fasterByte id)) (acc ++ [id])
                  rest) = some (batch, b2) := h
            by_cases hid : id = []
            · rw [if_pos hid] at h
              exact ih bloom acc batch b2 h hle
            · rw [if_neg hid] at h
              by_cases hex : bloom.Exists (fasterByte id) = true
              · rw [if_pos hex] at h
                exact ih bloom acc batch b2 h hle
              · rw [if_neg hex] at h
                have hexf : bloom.Exists (fasterByte id) = false := by
                  cases hb : bloom.Exists (fasterByte id)
                  · rfl
                  · exact absurd hb hex
                have hle2 : (acc ++ [id]).length ≤ cap := by
                  simp only [List.length_append, List.length_cons,
                    List.length_nil]
                  omega
                obtain ⟨hcap2, nw, hb, hadd, hnd, hfr⟩ :=
                  ih (bloom.Add (fasterByte id)) (acc ++ [id]) batch b2 h hle2
                refine ⟨hcap2, id :: nw, by simpa [List.append_assoc] using hb,
                  ?_, ?_, ?_⟩
                · rw [hadd]
                  simp [Bloom.Add, List.append_assoc]
                · refine List.nodup_cons.mpr ⟨?_, hnd⟩
                  intro hmem
                  have := hfr id hmem
                  rw [Bloom.Exists_of_mem (Bloom.mem_Add_self _ _)] at this
                  exact Bool.noConfusion this
                · intro x hx
                  rcases List.mem_cons.mp hx with hxe | hxm
                  · subst hxe
                    exact hexf
                  · exact Bloom.Exists_false_of_Add (hfr x hxm)

/-! ### Warm-up fold lemmas -/

theorem addRow_fold_mono (rows : List (Option GoStr)) :
    ∀ (b : Bloom) (k : List Nat), k ∈ b.added →
      k ∈ (rows.foldl addRow b).added := by
  induction rows with
  | nil => intro b k hk; exact hk
  | cons r rest ih =>
      intro b k hk
      match r with
      | none => exact ih b k hk
      | some id => exact ih _ k (Bloom.mem_Add_of_mem hk)

theorem addRow_fold_mem (rows : List (Option GoStr)) :
    ∀ (b : Bloom) (id : GoStr), some id ∈ rows →
      fasterByte id ∈ (rows.foldl addRow b).added := by
  induction rows with
  | nil => intro b id hid; exact absurd hid (List.not_mem_nil _)
  | cons r rest ih =>
      intro b id hid
      rcases List.mem_cons.mp hid with hre | hrm
      · rw [← hre]
        exact addRow_fold_mono rest _ _ (Bloom.mem_Add_self b (fasterByte id))
      · match r with
        | none => exact ih b id hrm
        | some j => exact ih _ id hrm

theorem addRow_fold_fp (rows : List (Option GoStr)) :
    ∀ (b : Bloom), (rows.foldl addRow b).fp = b.fp := by
  induction rows with
  | nil => intro b; rfl
  | cons r rest ih =>
      intro b
      match r with
      | none => exact ih b
      | some id => exact ih _

/-! ### Allocate case analysis -/

theorem getBucket_cases (f : Factory) :
    ((f.store.Pop).1 = [] ∧
      f.GetBucket = (Except.error
        { code := GrpcCode.ResourceExhausted
          message := "factory: it\x27s empty here" },
        { f with store := (f.store.Pop).2 })) ∨
    ((f.store.Pop).1 ≠ [] ∧
      f.GetBucket = (Except.ok { Ids := (f.store.Pop).1 },
        { f with store := (f.store.Pop).2 })) := by
  by_cases hnil : (f.store.Pop).1.length = 0
  · left
    refine ⟨List.length_eq_zero.mp hnil, ?_⟩
    simp only [Factory.GetBucket]
    rw [if_pos hnil]
  · right
    refine ⟨fun hn => hnil (by rw [hn]; rfl), ?_⟩
    simp only [Factory.GetBucket]
    rw [if_neg hnil]

theorem getLocalBucket_cases (f : Factory) :
    ((f.store.Pop).1 = [] ∧
      f.GetLocalBucket = (Except.error "factory: it\x27s empty here",
        { f with store := (f.store.Pop).2 })) ∨
    ((f.store.Pop).1 ≠ [] ∧
      f.GetLocalBucket = (Except.ok (f.store.Pop).1,
        { f with store := (f.store.Pop).2 })) := by
  by_cases hnil : (f.store.Pop).1.length = 0
  · left
    refine ⟨List.length_eq_zero.mp hnil, ?_⟩
    simp only [Factory.GetLocalBucket]
    rw [if_pos hnil]
  · right
    refine ⟨fun hn => hnil (by rw [hn]; rfl), ?_⟩
    simp only [Factory.GetLocalBucket]
    rw [if_neg hnil]

theorem pop_nil_iff (f : Factory)
    (hfull : ∀ i, i < f.store.status.length →
        f.store.status.getD i BucketEmpty = BucketFull →
        (f.store.buckets.getD i []).length = f.store.capacity)
    (hcap : 0 < f.store.capacity) :
    (f.store.Pop).1 = [] ↔ firstFull f.store.status = none := by
  constructor
  · intro hp
    match hff : firstFull f.store.status with
    | none => rfl
    | some i =>
        obtain ⟨hlt, hfi⟩ := firstFull_some hff
        rw [pop_some hff] at hp
        have hp2 : f.store.buckets.getD i [] = [] := hp
        have := hfull i hlt hfi
        rw [hp2] at this
        simp only [List.length_nil] at this
        omega
  · intro hff
    rw [pop_none hff]

/-! ### The claims -/

/-- C10: for every string `s`, `fasterByte s` is a byte sequence of length
`len(s)` whose i-th element is the i-th byte of `s`, so filter calls made
through it operate on exactly the identifier's bytes. -/
theorem fasterByte_view (s : GoStr) :
    (fasterByte s).length = s.length ∧
    (∀ i, i < s.length → (fasterByte s).getD i 0 = s.getD i 0) ∧
    fasterByte s = s := by
  refine ⟨?_, ?_, fasterByte_eq s⟩
  · rw [fasterByte_eq s]
  · intro i hi
    rw [fasterByte_eq s]

def memStoreW : MemStore :=
  { capacity := 2, status := [BucketFull], buckets := [[[2], [3]]] }

/-- C6, refuted as stated: the scheduler claim assignment of `Run`
(factory.go) checks no precondition; on a bucket that is not `Empty` it
overwrites the status rather than leaving it unchanged.  Concretely, on a
one-bucket store whose bucket is `Full`, the assignment moves it to
`Busy`. -/
theorem setBusy_not_noop :
    memStoreW.status.getD 0 BucketBusy ≠ BucketEmpty ∧
      (memStoreW.setBusy 0).status.getD 0 BucketEmpty ≠
        memStoreW.status.getD 0 BucketEmpty :=
  ⟨by decide, by decide⟩

/-- C6 as amended: the Empty-precondition of the Empty→Busy transition is
enforced by the caller, not inside the assignment: every index `Run`
claims comes from `GetEmpty` and is therefore currently `Empty`, and the
assignment then moves exactly that bucket to `Busy`, leaving every bucket
content, the capacity and every other bucket status unchanged. -/
theorem run_claims_only_empty (s : MemStore) (idx : Nat)
    (h : idx ∈ s.GetEmpty) :
    s.status.getD idx BucketEmpty = BucketEmpty ∧
    (s.setBusy idx).buckets = s.buckets ∧
    (s.setBusy idx).capacity = s.capacity ∧
    (s.setBusy idx).status.getD idx BucketEmpty = BucketBusy ∧
    (∀ j, j ≠ idx → (s.setBusy idx).status.getD j BucketEmpty =
        s.status.getD j BucketEmpty) := by
  obtain ⟨hrange, hbeq⟩ := List.mem_filter.mp h
  have hlt : idx < s.status.length := List.mem_range.mp hrange
  have hempty : s.status.getD idx BucketEmpty = BucketEmpty :=
    of_decide_eq_true hbeq
  refine ⟨hempty, rfl, rfl, ?_, ?_⟩
  · exact getD_set_self _ _ _ _ hlt
  · intro j hj
    exact getD_set_ne _ _ _ _ _ (fun hs => hj hs.symm)

def memStoreW2 : MemStore :=
  { capacity := 2
    status := [BucketFull, BucketEmpty]
    buckets := [[[2], [3]], []] }

theorem run_claims_only_empty_witness :
    1 ∈ memStoreW2.GetEmpty ∧
    (memStoreW2.status.getD 1 BucketEmpty = BucketEmpty ∧
      (memStoreW2.setBusy 1).buckets = memStoreW2.buckets ∧
      (memStoreW2.setBusy 1).capacity = memStoreW2.capacity ∧
      (memStoreW2.setBusy 1).status.getD 1 BucketEmpty = BucketBusy ∧
      (∀ j, j ≠ 1 → (memStoreW2.setBusy 1).status.getD j BucketEmpty =
          memStoreW2.status.getD j BucketEmpty)) :=
  ⟨by decide, run_claims_only_empty memStoreW2 1 (by decide)⟩

/-- C7: `Prepare` never aborts startup: whatever the outcome of the count
query, the id query or any row scan, it returns the factory with its store,
size and ticker untouched, and a bloom filter that retains everything it
already held (possibly partial or empty warm-up coverage). -/
theorem prepare_no_abort (f : Factory) (db : DbResult) :
    (f.Prepare db).store = f.store ∧
    (f.Prepare db).size = f.size ∧
    (f.Prepare db).tickRunning = f.tickRunning ∧
    (f.Prepare db).bloom.fp = f.bloom.fp ∧
    (∀ k, k ∈ f.bloom.added → k ∈ (f.Prepare db).bloom.added) := by
  simp only [Factory.Prepare]
  by_cases hc : 0 < db.countResult.getD 0
  · rw [if_pos hc]
    match db.rowsResult with
    | none => exact ⟨rfl, rfl, rfl, rfl, fun k hk => hk⟩
    | some rows =>
        exact ⟨rfl, rfl, rfl, addRow_fold_fp rows f.bloom,
          fun k hk => addRow_fold_mono rows f.bloom k hk⟩
  · rw [if_neg hc]
    exact ⟨rfl, rfl, rfl, rfl, fun k hk => hk⟩

/-- C5: after `Prepare` runs against a store holding K > 0 identifiers whose
count query and row scans all succeed, every one of them has been added to
the bloom filter, so `Exists` answers true for each. -/
theorem prepare_warmup (f : Factory) (db : DbResult) (k : Nat)
    (ids : List GoStr)
    (hc : db.countResult = some k) (hk : 0 < k)
    (hr : db.rowsResult = some (ids.map some))
    (hlen : ids.length = k) :
    ∀ id, id ∈ ids → (f.Prepare db).bloom.Exists (fasterByte id) = true := by
  intro id hid
  apply Bloom.Exists_of_mem
  simp only [Factory.Prepare, hc, hr, Option.getD_some]
  rw [if_pos hk]
  exact addRow_fold_mem (ids.map some) f.bloom id
    (List.mem_map_of_mem some hid)

def dbW : DbResult :=
  { countResult := some 2, rowsResult := some [some [7], some [8]] }

def factoryW0 : Factory :=
  { bloom := { added := [], fp := fun _ => false }
    store := NewMemStore 1 2
    size := 7
    tickRunning := true }

theorem prepare_warmup_witness :
    (dbW.countResult = some 2 ∧ 0 < 2 ∧
      dbW.rowsResult = some (([[7], [8]] : List GoStr).map some) ∧
      ([[7], [8]] : List GoStr).length = 2) ∧
    (∀ id, id ∈ ([[7], [8]] : List GoStr) →
      (factoryW0.Prepare dbW).bloom.Exists (fasterByte id) = true) :=
  ⟨⟨rfl, by decide, rfl, rfl⟩,
   prepare_warmup factoryW0 dbW 2 [[7], [8]] rfl (by decide) rfl rfl⟩

/-- C2: when a fill of bucket `idx` completes, the bucket is marked `Full`
and holds exactly `capacity` distinct identifiers; every candidate the
bloom filter already answered true for was discarded and is not in the
batch, and every accepted identifier has been added to the filter. -/
theorem populateBucket_correct (f : Factory) (idx : Nat)
    (cands : List (Option GoStr)) (f2 : Factory)
    (hidx : idx < f.store.status.length)
    (hidxb : idx < f.store.buckets.length)
    (h : f.populateBucket idx cands = some f2) :
    f2.store.status.getD idx BucketEmpty = BucketFull ∧
    (f2.store.buckets.getD idx []).length = f.store.capacity ∧
    (f2.store.buckets.getD idx []).Nodup ∧
    (∀ id, f.bloom.Exists (fasterByte id) = true →
        id ∉ f2.store.buckets.getD idx []) ∧
    (∀ id, id ∈ f2.store.buckets.getD idx [] →
        fasterByte id ∈ f2.bloom.added) := by
  unfold Factory.populateBucket at h
  match hfl : fillLoop f.store.capacity f.bloom [] cands with
  | none => rw [hfl] at h; exact Option.noConfusion h
  | some (batch, b) =>
      rw [hfl] at h
      simp only [Option.some.injEq] at h
      obtain ⟨hcap, nw, hbatch, hadded, hnd, hfr⟩ :=
        fillLoop_spec f.store.capacity cands f.bloom [] batch b hfl
          (Nat.zero_le _)
      rw [List.nil_append] at hbatch
      subst hbatch
      subst h
      have hgb : ((f.store.buckets.set idx batch).getD idx []) = batch :=
        getD_set_self _ _ _ _ hidxb
      refine ⟨getD_set_self _ _ _ _ hidx, ?_, ?_, ?_, ?_⟩
      · rw [hgb]; exact hcap
      · rw [hgb]; exact hnd
      · intro id hex hmem
        rw [hgb] at hmem
        rw [hfr id hmem] at hex
        exact Bool.noConfusion hex
      · intro id hmem
        rw [hgb] at hmem
        show fasterByte id ∈ b.added
        rw [hadded]
        apply List.mem_append_left
        rw [List.mem_reverse]
        exact List.mem_map_of_mem fasterByte hmem

def factoryW : Factory :=
  { bloom := { added := [[1]], fp := fun _ => false }
    store := { capacity := 2, status := [BucketBusy], buckets := [[]] }
    size := 7
    tickRunning := true }

def candsW : List (Option GoStr) :=
  [some [1], none, some [], some [2], some [3]]

def factoryW2 : Factory :=
  { bloom := { added := [[3], [2], [1]], fp := fun _ => false }
    store := { capacity := 2, status := [BucketFull], buckets := [[[2], [3]]] }
    size := 7
    tickRunning := true }

theorem populateBucket_correct_witness :
    (0 < factoryW.store.status.length ∧ 0 < factoryW.store.buckets.length ∧
      factoryW.populateBucket 0 candsW = some factoryW2) ∧
    (factoryW2.store.status.getD 0 BucketEmpty = BucketFull ∧
      (factoryW2.store.buckets.getD 0 []).length = factoryW.store.capacity ∧
      (factoryW2.store.buckets.getD 0 []).Nodup ∧
      (∀ id, factoryW.bloom.Exists (fasterByte id) = true →
          id ∉ factoryW2.store.buckets.getD 0 []) ∧
      (∀ id, id ∈ factoryW2.store.buckets.getD 0 [] →
          fasterByte id ∈ factoryW2.bloom.added)) :=
  ⟨⟨by decide, by decide, rfl⟩,
   populateBucket_correct factoryW 0 candsW factoryW2 (by decide) (by decide)
     rfl⟩

/-- C8: the remote and the local allocate are semantically identical: for the
same factory state both delegate to `Pop`, succeed or fail together, return
the same identifiers on success, and leave the same factory state behind,
differing only in how the result is represented. -/
theorem allocate_local_remote_equiv (f : Factory) :
    ((f.GetBucket).1.toOption.map ProtoBucket.Ids =
      (f.GetLocalBucket).1.toOption) ∧
    ((f.GetBucket).2 = (f.GetLocalBucket).2) ∧
    (((f.GetBucket).1.toOption = none) ↔
      ((f.GetLocalBucket).1.toOption = none)) := by
  rcases getBucket_cases f with ⟨hnil, hb⟩ | ⟨hnn, hb⟩ <;>
    rcases getLocalBucket_cases f with ⟨hnil2, hl⟩ | ⟨hnn2, hl⟩
  · rw [hb, hl]
    refine ⟨rfl, rfl, ?_⟩
    simp [Except.toOption]
  · exact absurd hnil hnn2
  · exact absurd hnil2 hnn
  · rw [hb, hl]
    refine ⟨rfl, rfl, ?_⟩
    simp [Except.toOption]

/-- C3: allocate (remote and local) fails exactly when `Pop` yields no
identifiers, which under the run invariant with positive capacity is
exactly when no `Full` bucket exists; success returns a full batch of
`capacity` identifiers, failure returns none at all, and the remote
failure carries the resource-exhaustion status code. -/
theorem allocate_exhausted_iff (f : Factory)
    (hfull : ∀ i, i < f.store.status.length →
        f.store.status.getD i BucketEmpty = BucketFull →
        (f.store.buckets.getD i []).length = f.store.capacity)
    (hcap : 0 < f.store.capacity) :
    (((f.GetBucket).1.toOption = none) ↔ firstFull f.store.status = none) ∧
    (((f.GetLocalBucket).1.toOption = none) ↔
      firstFull f.store.status = none) ∧
    (((f.GetBucket).1.toOption = none) ↔ (f.store.Pop).1 = []) ∧
    (∀ b f2, f.GetBucket = (Except.ok b, f2) →
        b.Ids = (f.store.Pop).1 ∧ b.Ids.length = f.store.capacity) ∧
    (∀ ids f2, f.GetLocalBucket = (Except.ok ids, f2) →
        ids.length = f.store.capacity) ∧
    (∀ e f2, f.GetBucket = (Except.error e, f2) →
        e.code = GrpcCode.ResourceExhausted) := by
  have hiff := pop_nil_iff f hfull hcap
  have hfailB : (f.GetBucket).1.toOption = none ↔ (f.store.Pop).1 = [] := by
    rcases getBucket_cases f with ⟨hnil, hb⟩ | ⟨hnn, hb⟩
    · rw [hb]
      simp [Except.toOption, hnil]
    · rw [hb]
      simp [Except.toOption, hnn]
  have hfailL : (f.GetLocalBucket).1.toOption = none ↔
      (f.store.Pop).1 = [] := by
    rcases getLocalBucket_cases f with ⟨hnil, hl⟩ | ⟨hnn, hl⟩
    · rw [hl]
      simp [Except.toOption, hnil]
    · rw [hl]
      simp [Except.toOption, hnn]
  refine ⟨hfailB.trans hiff, hfailL.trans hiff, hfailB, ?_, ?_, ?_⟩
  · intro b f2 h
    obtain ⟨i, hff, hids, hnn, hf2⟩ := getBucket_ok h
    constructor
    · rw [hids, pop_some hff]
    · rw [hids]
      obtain ⟨hlt, hfi⟩ := firstFull_some hff
      exact hfull i hlt hfi
  · intro ids f2 h
    obtain ⟨i, hff, hids, hnn, hf2⟩ := getLocalBucket_ok h
    rw [hids]
    obtain ⟨hlt, hfi⟩ := firstFull_some hff
    exact hfull i hlt hfi
  · intro e f2 h
    rcases getBucket_cases f with ⟨hnil, hb⟩ | ⟨hnn, hb⟩
    · have h2 := hb.symm.trans h
      simp only [Prod.mk.injEq, Except.error.injEq] at h2
      rw [← h2.1]
    · have h2 := hb.symm.trans h
      simp at h2

theorem allocate_exhausted_iff_witness :
    ((∀ i, i < factoryW2.store.status.length →
        factoryW2.store.status.getD i BucketEmpty = BucketFull →
        (factoryW2.store.buckets.getD i []).length =
          factoryW2.store.capacity) ∧
      0 < factoryW2.store.capacity) ∧
    ((((factoryW2.GetBucket).1.toOption = none) ↔
        firstFull factoryW2.store.status = none) ∧
      (((factoryW2.GetLocalBucket).1.toOption = none) ↔
        firstFull factoryW2.store.status = none) ∧
      (((factoryW2.GetBucket).1.toOption = none) ↔
        (factoryW2.store.Pop).1 = []) ∧
      (∀ b f2, factoryW2.GetBucket = (Except.ok b, f2) →
          b.Ids = (factoryW2.store.Pop).1 ∧
          b.Ids.length = factoryW2.store.capacity) ∧
      (∀ ids f2, factoryW2.GetLocalBucket = (Except.ok ids, f2) →
          ids.length = factoryW2.store.capacity) ∧
      (∀ e f2, factoryW2.GetBucket = (Except.error e, f2) →
          e.code = GrpcCode.ResourceExhausted)) :=
  ⟨⟨by decide, by decide⟩,
   allocate_exhausted_iff factoryW2 (by decide) (by decide)⟩

/-- C1: across any run of the system — any sequence of scheduler claims,
concurrent fill-worker steps, local or remote allocates, and shutdown —
no two identifiers handed to consumers are equal: the issued list never
holds a duplicate. -/
theorem allocate_unique (b0 : Bloom) (size capacity idSize : Nat)
    (s : SysState) (h : Reachable (initState b0 size capacity idSize) s) :
    s.issued.Nodup := by
  have hinv := runInv_reachable h (runInv_init b0 size capacity idSize)
  exact (List.nodup_append.mp hinv.2.2.1).1

/-- The effect of `Shutdown` on a whole run state. -/
def shutdownSys (s : SysState) : SysState :=
  { s with factory := s.factory.Shutdown }

def bloomW0 : Bloom := { added := [], fp := fun _ => false }

theorem allocate_unique_witness :
    Reachable (initState bloomW0 1 2 7) (shutdownSys (initState bloomW0 1 2 7)) ∧
      (shutdownSys (initState bloomW0 1 2 7)).issued.Nodup :=
  ⟨Relation.ReflTransGen.single (Step.shutdown _),
   allocate_unique bloomW0 1 2 7 _
     (Relation.ReflTransGen.single (Step.shutdown _))⟩

/-- C4: every atomic step moves each bucket's status along the cycle
`Empty→Busy` (scheduler claim), `Busy→Full` (fill completion) or
`Full→Empty` (consumer allocate), or leaves it unchanged; no other
transition is reachable. -/
theorem bucket_status_transitions {s s2 : SysState} (h : Step s s2)
    (i : Nat) :
    (s2.factory.store.status.getD i BucketEmpty =
        s.factory.store.status.getD i BucketEmpty) ∨
    (s.factory.store.status.getD i BucketEmpty = BucketEmpty ∧
      s2.factory.store.status.getD i BucketEmpty = BucketBusy) ∨
    (s.factory.store.status.getD i BucketEmpty = BucketBusy ∧
      s2.factory.store.status.getD i BucketEmpty = BucketFull) ∨
    (s.factory.store.status.getD i BucketEmpty = BucketFull ∧
      s2.factory.store.status.getD i BucketEmpty = BucketEmpty) := by
  cases h with
  | claim idx htick hempty =>
      by_cases hii : i = idx
      · subst hii
        refine Or.inr (Or.inl ⟨getD_of_getElem?_some BucketEmpty hempty, ?_⟩)
        show (s.factory.store.status.set i BucketBusy).getD i BucketEmpty =
          BucketBusy
        exact getD_set_self _ _ _ _ (lt_length_of_getElem?_some hempty)
      · left
        show (s.factory.store.status.set idx BucketBusy).getD i BucketEmpty = _
        exact getD_set_ne _ _ _ _ _ (fun hs => hii hs.symm)
  | fill _ hf =>
      cases hf with
      | accept idx id h1 h2 h3 h4 => exact Or.inl rfl
      | complete idx h1 h2 =>
          by_cases hii : i = idx
          · subst hii
            refine Or.inr (Or.inr (Or.inl
              ⟨getD_of_getElem?_some BucketEmpty h1, ?_⟩))
            show (s.factory.store.status.set i BucketFull).getD i BucketEmpty =
              BucketFull
            exact getD_set_self _ _ _ _ (lt_length_of_getElem?_some h1)
          · left
            show (s.factory.store.status.set idx BucketFull).getD i
              BucketEmpty = _
            exact getD_set_ne _ _ _ _ _ (fun hs => hii hs.symm)
  | allocateLocal ids f2 hok =>
      obtain ⟨j, hff, hids, hnn, hf2⟩ := getLocalBucket_ok hok
      obtain ⟨hlt, hfj⟩ := firstFull_some hff
      subst hf2
      by_cases hii : i = j
      · subst hii
        refine Or.inr (Or.inr (Or.inr ⟨hfj, ?_⟩))
        show (s.factory.store.status.set i BucketEmpty).getD i BucketEmpty =
          BucketEmpty
        exact getD_set_self _ _ _ _ hlt
      · left
        show (s.factory.store.status.set j BucketEmpty).getD i BucketEmpty = _
        exact getD_set_ne _ _ _ _ _ (fun hs => hii hs.symm)
  | allocateRemote b f2 hok =>
      obtain ⟨j, hff, hids, hnn, hf2⟩ := getBucket_ok hok
      obtain ⟨hlt, hfj⟩ := firstFull_some hff
      subst hf2
      by_cases hii : i = j
      · subst hii
        refine Or.inr (Or.inr (Or.inr ⟨hfj, ?_⟩))
        show (s.factory.store.status.set i BucketEmpty).getD i BucketEmpty =
          BucketEmpty
        exact getD_set_self _ _ _ _ hlt
      · left
        show (s.factory.store.status.set j BucketEmpty).getD i BucketEmpty = _
        exact getD_set_ne _ _ _ _ _ (fun hs => hii hs.symm)
  | shutdown => exact Or.inl rfl

theorem bucket_status_transitions_witness :
    Step (initState bloomW0 1 2 7) (shutdownSys (initState bloomW0 1 2 7)) ∧
    ((shutdownSys (initState bloomW0 1 2 7)).factory.store.status.getD 0
        BucketEmpty =
      (initState bloomW0 1 2 7).factory.store.status.getD 0 BucketEmpty ∨
    ((initState bloomW0 1 2 7).factory.store.status.getD 0 BucketEmpty =
        BucketEmpty ∧
      (shutdownSys (initState bloomW0 1 2 7)).factory.store.status.getD 0
          BucketEmpty = BucketBusy) ∨
    ((initState bloomW0 1 2 7).factory.store.status.getD 0 BucketEmpty =
        BucketBusy ∧
      (shutdownSys (initState bloomW0 1 2 7)).factory.store.status.getD 0
          BucketEmpty = BucketFull) ∨
    ((initState bloomW0 1 2 7).factory.store.status.getD 0 BucketEmpty =
        BucketFull ∧
      (shutdownSys (initState bloomW0 1 2 7)).factory.store.status.getD 0
          BucketEmpty = BucketEmpty)) :=
  ⟨Step.shutdown _, bucket_status_transitions (Step.shutdown _) 0⟩

/-- C9: `Shutdown` stops only the ticker: the bloom filter, the bucket store
(every status and every batch) and the identifier size are untouched, and
any fill-worker step that could run before the shutdown can still run,
unchanged, after it — in-flight fills are not cancelled. -/
theorem shutdown_frame (f : Factory) (s s2 : SysState) :
    ((f.Shutdown).bloom = f.bloom ∧ (f.Shutdown).store = f.store ∧
      (f.Shutdown).size = f.size ∧ (f.Shutdown).tickRunning = false) ∧
    (FillStep s s2 → FillStep (shutdownSys s) (shutdownSys s2)) := by
  refine ⟨⟨rfl, rfl, rfl, rfl⟩, ?_⟩
  intro hf
  cases hf with
  | accept idx id h1 h2 h3 h4 => exact FillStep.accept _ idx id h1 h2 h3 h4
  | complete idx h1 h2 => exact FillStep.complete _ idx h1 h2
